import Mathlib

/- Verification of the computational core of the alpha-mirage repository:
   the trading-metrics evaluator (scripts/ml_training/train_models.py,
   calculate_trading_metrics) and the feature-engineering library
   (scripts/ml_training/feature_engineering.py).

   Shallow embedding conventions:
   - IEEE-754 doubles are modelled as exact rationals; where the code
     explicitly handles non-finite values (NaN, plus/minus infinity) they
     are modelled by an explicit sum type (FVal) or by Option (none = NaN,
     the representation pandas uses for missing values).
   - Division by zero in the rational model returns 0 (Lean's convention);
     every division in the source is epsilon-guarded, and the concrete
     inputs used in the theorems below never make a guarded denominator
     vanish.
   - np.sqrt has no exact rational counterpart, so definitions that need it
     take an explicit parameter standing for the square-root function.  No
     claim below depends on the value of a square root: the parameter only
     flows into terminal report/feature values, never into control flow or
     missing-value (NaN) structure. -/

namespace AlphaMirage

/-- Epsilon guard 1e-10 used throughout the source for safe division. -/
def eps : ℚ := 1 / 10 ^ 10

/-- Model of an IEEE double as seen by calculate_trading_metrics: a finite
value (modelled exactly as a rational) or one of the non-finite values. -/
inductive FVal where
  | fin (q : ℚ)
  | nan
  | pinf
  | ninf
deriving DecidableEq

/-- Largest finite IEEE double, 1.7976931348623157e308, exactly
(2^53 - 1) * 2^971. -/
def maxFloat : ℚ := (2 ^ 53 - 1) * 2 ^ 971

/-- Multiplication of an integer position by a double, with IEEE semantics
on the non-finite values (0 times infinity is NaN). -/
def intMulF (p : ℤ) : FVal → FVal
  | .fin q => .fin (p * q)
  | .nan => .nan
  | .pinf => if 0 < p then .pinf else if p < 0 then .ninf else .nan
  | .ninf => if 0 < p then .ninf else if p < 0 then .pinf else .nan

/-- Model of np.nan_to_num(x, 0) as called in calculate_trading_metrics.
The second positional argument of np.nan_to_num is the copy flag, so the
keyword defaults apply: NaN is replaced by 0.0, while positive and negative
infinity are replaced by the largest-magnitude finite doubles, not by 0. -/
def nan_to_num : FVal → FVal
  | .fin q => .fin q
  | .nan => .fin 0
  | .pinf => .fin maxFloat
  | .ninf => .fin (-maxFloat)

/-- Model of np.isfinite on a single value. -/
def isfinite : FVal → Bool
  | .fin _ => true
  | _ => false

/-- Extract the rational of a finite value; non-finite values never survive
the isfinite filter, so the default 0 is unreachable in context. -/
def FVal.toRat : FVal → ℚ
  | .fin q => q
  | _ => 0

/-- Positions 2 * y_pred - 1 (label 0 mapped to -1, label 1 mapped to 1). -/
def positions (y_pred : List ℤ) : List ℤ :=
  y_pred.map (fun y => 2 * y - 1)

/-- The strategy-returns vector of calculate_trading_metrics: positions
times returns, passed through np.nan_to_num, then filtered to the entries
on which np.isfinite holds.  (After nan_to_num every entry is finite, so
the filter keeps everything.) -/
def strategy_returns (y_pred : List ℤ) (returns : List FVal) : List ℚ :=
  (((List.zipWith intMulF (positions y_pred) returns).map nan_to_num).filter
    (fun v => isfinite v)).map FVal.toRat

/-- Mean of a list, np.mean (0 on the empty list is unreachable: only
applied after the emptiness check). -/
def npMean (l : List ℚ) : ℚ := l.sum / l.length

/-- Population variance, the square of np.std. -/
def npVar (l : List ℚ) : ℚ :=
  ((l.map (fun x => (x - npMean l) ^ 2)).sum) / l.length

/-- Minimum of a list, np.min (0 on the empty list is unreachable). -/
def npMin : List ℚ → ℚ
  | [] => 0
  | x :: xs => xs.foldl min x

/-- Model of np.clip on scalars. -/
def clip (x lo hi : ℚ) : ℚ := min hi (max lo x)

/-- Cumulative products, np.cumprod, with running accumulator. -/
def cumprodAux (acc : ℚ) : List ℚ → List ℚ
  | [] => []
  | x :: xs => (acc * x) :: cumprodAux (acc * x) xs

/-- Model of np.cumprod. -/
def cumprod (l : List ℚ) : List ℚ := cumprodAux 1 l

/-- Running maxima after the first element. -/
def runmaxAux (acc : ℚ) : List ℚ → List ℚ
  | [] => []
  | x :: xs => (max acc x) :: runmaxAux (max acc x) xs

/-- Model of np.maximum.accumulate. -/
def runmax : List ℚ → List ℚ
  | [] => []
  | x :: xs => x :: runmaxAux x xs

/-- Per-time-step drawdowns: (cumprod(1 + r) - running_max) /
(running_max + 1e-10). -/
def drawdowns (sr : List ℚ) : List ℚ :=
  let cum := cumprod (sr.map (fun r => 1 + r))
  let rm := runmax cum
  List.zipWith (fun c m => (c - m) / (m + eps)) cum rm

/-- The standardized trading-metrics report returned by
calculate_trading_metrics.  Field names follow the report keys, shortened
where needed. -/
structure MetricsReport where
  sharpe : ℚ
  max_drawdown : ℚ
  win_rate : ℚ
  profit_factor : ℚ
  total_trades : ℕ
  avg_return : ℚ
  volatility : ℚ
  calmar : ℚ
  sortino : ℚ
deriving DecidableEq

/-- The fixed report returned on a degenerate (empty) strategy-returns
vector. -/
def default_report : MetricsReport :=
  { sharpe := 0, max_drawdown := 0, win_rate := 0, profit_factor := 1,
    total_trades := 0, avg_return := 0, volatility := 0, calmar := 0,
    sortino := 0 }

/-- Model of calculate_trading_metrics (train_models.py).  The rsqrt
parameter stands for np.sqrt; it only enters the sharpe, volatility and
sortino values. -/
def calculate_trading_metrics (rsqrt : ℚ → ℚ) (y_pred : List ℤ)
    (returns : List FVal) : MetricsReport :=
  let sr := strategy_returns y_pred returns
  if sr = [] then default_report
  else
    let mean_return := npMean sr
    let std_return := rsqrt (npVar sr)
    let sharpe := (mean_return / (std_return + eps)) * rsqrt 252
    let max_dd := npMin (drawdowns sr)
    let wins := sr.countP (fun r => decide (0 < r))
    let tt := sr.countP (fun r => decide ((1 : ℚ) / 10 ^ 6 < |r|))
    let win_rate := (wins : ℚ) / ((max tt 1 : ℕ) : ℚ)
    let gross_profit := (sr.filter (fun r => decide (0 < r))).sum
    let gross_loss := |(sr.filter (fun r => decide (r < 0))).sum|
    let profit_factor := gross_profit / max gross_loss eps
    let volatility := std_return * rsqrt 252
    let annual_return := mean_return * 252
    let calmar := annual_return / |min max_dd (-(1 / 1000) : ℚ)|
    let downside := sr.filter (fun r => decide (r < 0))
    let downside_std := if downside.length > 0 then rsqrt (npVar downside) else eps
    let sortino := (mean_return / (downside_std + eps)) * rsqrt 252
    { sharpe := clip sharpe (-10) 10
      max_drawdown := max_dd
      win_rate := win_rate
      profit_factor := clip profit_factor 0 10
      total_trades := tt
      avg_return := mean_return
      volatility := volatility
      calmar := clip calmar (-10) 10
      sortino := clip sortino (-10) 10 }

/-- Folding min over a list never exceeds the initial accumulator. -/
theorem foldl_min_le_init (l : List ℚ) : ∀ a : ℚ, l.foldl min a ≤ a := by
  induction l with
  | nil => intro a; exact le_refl a
  | cons x xs ih =>
    intro a
    calc (x :: xs).foldl min a = xs.foldl min (min a x) := rfl
    _ ≤ min a x := ih (min a x)
    _ ≤ a := min_le_left a x

/-- The drawdown at the first time step is exactly 0. -/
theorem drawdowns_cons (x : ℚ) (xs : List ℚ) :
    drawdowns (x :: xs) =
      0 :: List.zipWith (fun c m => (c - m) / (m + eps))
        (cumprodAux (1 * (1 + x)) (xs.map (fun r => 1 + r)))
        (runmaxAux (1 * (1 + x)) (cumprodAux (1 * (1 + x)) (xs.map (fun r => 1 + r)))) := by
  simp only [drawdowns, cumprod, List.map_cons, cumprodAux, runmax, List.zipWith]
  rw [sub_self, zero_div]

/-- On a nonempty strategy-returns list, the minimal drawdown is at most 0
(the first drawdown is 0). -/
theorem npMin_drawdowns_nonpos (x : ℚ) (xs : List ℚ) :
    npMin (drawdowns (x :: xs)) ≤ 0 := by
  rw [drawdowns_cons]
  exact foldl_min_le_init _ 0

/-- C1: whenever the strategy-returns vector is empty after the finiteness
filter, calculate_trading_metrics returns exactly the fixed default report
(sharpe 0, max_drawdown 0, win_rate 0, profit_factor 1, total_trades 0,
avg_return 0, volatility 0, calmar 0, sortino 0), with every key present
and no other value. -/
theorem c1_empty_strategy_returns_default (rsqrt : ℚ → ℚ) (y_pred : List ℤ)
    (returns : List FVal) (h : strategy_returns y_pred returns = []) :
    calculate_trading_metrics rsqrt y_pred returns = default_report := by
  unfold calculate_trading_metrics
  simp [h]

/-- Witness for C1 at the concrete empty prediction set. -/
theorem c1_empty_strategy_returns_default_witness :
    strategy_returns [] [] = [] ∧
      calculate_trading_metrics (fun _ => 0) [] [] = default_report :=
  ⟨rfl, c1_empty_strategy_returns_default (fun _ => 0) [] [] rfl⟩

/-- C8: on a nonempty strategy-returns vector, the reported max_drawdown is
the unclipped minimum over time of (cumprod(1 + r) - running_max) /
(running_max + 1e-10), and it is at most 0. -/
theorem c8_max_drawdown_nonpos (rsqrt : ℚ → ℚ) (y_pred : List ℤ)
    (returns : List FVal) (h : strategy_returns y_pred returns ≠ []) :
    (calculate_trading_metrics rsqrt y_pred returns).max_drawdown =
        npMin (drawdowns (strategy_returns y_pred returns)) ∧
      (calculate_trading_metrics rsqrt y_pred returns).max_drawdown ≤ 0 := by
  have hfield : (calculate_trading_metrics rsqrt y_pred returns).max_drawdown =
      npMin (drawdowns (strategy_returns y_pred returns)) := by
    unfold calculate_trading_metrics
    simp [h]
  refine ⟨hfield, ?_⟩
  rw [hfield]
  cases hs : strategy_returns y_pred returns with
  | nil => exact absurd hs h
  | cons x xs => exact npMin_drawdowns_nonpos x xs

/-- Witness for C8 at a concrete one-element prediction set. -/
theorem c8_max_drawdown_nonpos_witness :
    strategy_returns [1] [FVal.fin (1 / 100)] ≠ [] ∧
      (calculate_trading_metrics (fun _ => 0) [1]
        [FVal.fin (1 / 100)]).max_drawdown ≤ 0 :=
  ⟨by decide, (c8_max_drawdown_nonpos (fun _ => 0) [1] [FVal.fin (1 / 100)]
    (by decide)).2⟩

/-- C6 (code bug): with a +infinity entry in positions * returns, the
np.nan_to_num call (whose second positional argument 0 is the copy flag,
not the replacement value) replaces it with the largest finite double
1.7976931348623157e308 rather than with 0, and the subsequent isfinite
filter then removes nothing; NaN entries alone are replaced by 0. -/
theorem c6_inf_entry_not_zeroed :
    strategy_returns [1] [FVal.pinf] = [maxFloat] ∧ maxFloat ≠ 0 ∧
      nan_to_num FVal.nan = FVal.fin 0 := by
  refine ⟨rfl, ?_, rfl⟩
  norm_num [maxFloat]

/-- C4 (counterexample): with two strictly positive strategy returns of
1e-7, each below the 1e-6 trade threshold, win_rate is 2, outside [0,1]. -/
theorem c4_counterexample :
    (calculate_trading_metrics (fun _ => 0) [1, 1]
        [FVal.fin (1 / 10 ^ 7), FVal.fin (1 / 10 ^ 7)]).win_rate = 2 ∧
      ¬ (calculate_trading_metrics (fun _ => 0) [1, 1]
        [FVal.fin (1 / 10 ^ 7), FVal.fin (1 / 10 ^ 7)]).win_rate ≤ 1 := by
  constructor
  · with_unfolding_all decide
  · with_unfolding_all decide

/-- C4 (amended): win_rate always equals count(strategy_returns > 0) /
max(count(|strategy_returns| > 1e-6), 1), and it lies in [0,1] whenever
every strictly positive strategy return exceeds the 1e-6 threshold (the
unamended in-[0,1] claim fails when positive returns at or below 1e-6
exist). -/
theorem c4_win_rate_formula (rsqrt : ℚ → ℚ) (y_pred : List ℤ)
    (returns : List FVal) :
    (calculate_trading_metrics rsqrt y_pred returns).win_rate =
        (((strategy_returns y_pred returns).countP
            (fun r => decide (0 < r)) : ℕ) : ℚ) /
          ((max ((strategy_returns y_pred returns).countP
            (fun r => decide ((1 : ℚ) / 10 ^ 6 < |r|))) 1 : ℕ) : ℚ) ∧
      ((∀ r ∈ strategy_returns y_pred returns, 0 < r → (1 : ℚ) / 10 ^ 6 < r) →
        0 ≤ (calculate_trading_metrics rsqrt y_pred returns).win_rate ∧
          (calculate_trading_metrics rsqrt y_pred returns).win_rate ≤ 1) := by
  have hw : (calculate_trading_metrics rsqrt y_pred returns).win_rate =
      (((strategy_returns y_pred returns).countP
          (fun r => decide (0 < r)) : ℕ) : ℚ) /
        ((max ((strategy_returns y_pred returns).countP
          (fun r => decide ((1 : ℚ) / 10 ^ 6 < |r|))) 1 : ℕ) : ℚ) := by
    by_cases hs : strategy_returns y_pred returns = []
    · simp [calculate_trading_metrics, hs, default_report]
    · unfold calculate_trading_metrics
      simp [hs]
  refine ⟨hw, fun hyp => ?_⟩
  rw [hw]
  have hcount : (strategy_returns y_pred returns).countP
      (fun r => decide (0 < r)) ≤
      max ((strategy_returns y_pred returns).countP
        (fun r => decide ((1 : ℚ) / 10 ^ 6 < |r|))) 1 := by
    refine le_trans (List.countP_mono_left ?_) (le_max_left _ 1)
    intro r hr hp
    have hp' : (0 : ℚ) < r := of_decide_eq_true hp
    have : (1 : ℚ) / 10 ^ 6 < |r| :=
      lt_of_lt_of_le (hyp r hr hp') (le_abs_self r)
    exact decide_eq_true this
  have hden : (0 : ℚ) <
      ((max ((strategy_returns y_pred returns).countP
        (fun r => decide ((1 : ℚ) / 10 ^ 6 < |r|))) 1 : ℕ) : ℚ) := by
    have : (1 : ℕ) ≤ max ((strategy_returns y_pred returns).countP
        (fun r => decide ((1 : ℚ) / 10 ^ 6 < |r|))) 1 := le_max_right _ 1
    exact_mod_cast Nat.lt_of_lt_of_le Nat.zero_lt_one this
  constructor
  · exact div_nonneg (Nat.cast_nonneg _) (le_of_lt hden)
  · exact (div_le_one hden).mpr (by exact_mod_cast hcount)

/-- Witness for C4 at a concrete prediction set with one genuine winning
trade. -/
theorem c4_win_rate_formula_witness :
    (∀ r ∈ strategy_returns [1] [FVal.fin (1 / 100)],
        0 < r → (1 : ℚ) / 10 ^ 6 < r) ∧
      (calculate_trading_metrics (fun _ => 0) [1]
          [FVal.fin (1 / 100)]).win_rate = 1 ∧
      0 ≤ (calculate_trading_metrics (fun _ => 0) [1]
          [FVal.fin (1 / 100)]).win_rate ∧
      (calculate_trading_metrics (fun _ => 0) [1]
          [FVal.fin (1 / 100)]).win_rate ≤ 1 := by
  have h := c4_win_rate_formula (fun _ => 0) [1] [FVal.fin (1 / 100)]
  refine ⟨by with_unfolding_all decide, by with_unfolding_all decide, h.2 ?_⟩
  with_unfolding_all decide

/- ===================================================================
   Indicator library (feature_engineering.py).  Series are modelled as
   lists; a pandas missing value (NaN) is Option.none.  Sites whose pandas
   input provably carries no NaN (close, high, low, open, volume and series
   derived from them without diff/shift/rolling warm-ups) use plain lists
   of rationals. -/

/-- A pure series injected into the missing-value representation. -/
def pureS (s : List ℚ) : List (Option ℚ) := s.map some

/-- Elementwise combination of two series, missing values propagating
(pandas arithmetic alignment on an identical index). -/
def o2 (f : ℚ → ℚ → ℚ) : Option ℚ → Option ℚ → Option ℚ
  | some a, some b => some (f a b)
  | _, _ => none

/-- Elementwise division; a zero denominator is modelled as a missing
value (the float code would produce an infinity or NaN there; no guarded
call site can produce a zero denominator on the inputs considered). -/
def odiv : Option ℚ → Option ℚ → Option ℚ
  | some a, some b => if b = 0 then none else some (a / b)
  | _, _ => none

/-- Elementwise strict greater-than; comparisons involving NaN are False
in pandas. -/
def gtB : Option ℚ → Option ℚ → Bool
  | some a, some b => decide (b < a)
  | _, _ => false

/-- Model of Series.diff(): first position missing, then successive
differences. -/
def diff : List ℚ → List (Option ℚ)
  | [] => []
  | x :: xs => none :: List.zipWith (fun b a => some (b - a)) xs (x :: xs)

/-- Model of Series.shift(p) for p ≥ 0: p missing values, then the first
length - p entries. -/
def shift (p : ℕ) (s : List (Option ℚ)) : List (Option ℚ) :=
  List.replicate p none ++ s.take (s.length - p)

/-- Model of Series.shift(-1): entries moved up one position, last
position missing. -/
def shiftNeg1 : List (Option ℚ) → List (Option ℚ)
  | [] => []
  | _ :: xs => xs ++ [none]

/-- Forward fill with running accumulator (pandas ffill; leading missing
values stay missing). -/
def ffillAux (acc : Option ℚ) : List (Option ℚ) → List (Option ℚ)
  | [] => []
  | none :: xs => acc :: ffillAux acc xs
  | some v :: xs => some v :: ffillAux (some v) xs

/-- Model of Series.ffill(). -/
def ffill (s : List (Option ℚ)) : List (Option ℚ) := ffillAux none s

/-- Model of Series.pct_change(p) for p ≥ 1 with the classic default
fill_method pad: forward-fill, then self / self.shift(p) - 1. -/
def pct_change (p : ℕ) (s : List (Option ℚ)) : List (Option ℚ) :=
  let f := ffill s
  (List.zipWith odiv f (shift p f)).map (Option.map (fun q => q - 1))

/-- The trailing window of width w ending at index i, restricted to the
non-missing values (pandas rolling windows aggregate over the non-NaN
entries of the window). -/
def rwindow (w : ℕ) (s : List (Option ℚ)) (i : ℕ) : List ℚ :=
  ((s.take (i + 1)).drop (i + 1 - w)).filterMap id

/-- Sliding-window worker for rolling aggregation: winRev holds the
current window in reverse (as pandas' kernels slide a window along the
series), and each output position aggregates the non-missing values of
the window, provided at least mp of them are present. -/
def rollingAux (w mp : ℕ) (f : List ℚ → Option ℚ) (winRev : List (Option ℚ)) :
    List (Option ℚ) → List (Option ℚ)
  | [] => []
  | x :: rest =>
    let winRev' := (x :: winRev).take w
    let vals := winRev'.reverse.filterMap id
    (if vals.length < mp then none else f vals) ::
      rollingAux w mp f winRev' rest

/-- Model of Series.rolling(window=w, min_periods=mp).AGG for an
aggregation f over the non-missing window values. -/
def rollingApply (w mp : ℕ) (f : List ℚ → Option ℚ) (s : List (Option ℚ)) :
    List (Option ℚ) :=
  rollingAux w mp f [] s

/-- Simple Moving Average: rolling(window=period, min_periods=1).mean(). -/
def sma (series : List (Option ℚ)) (period : ℕ) : List (Option ℚ) :=
  rollingApply period 1 (fun vals => some (vals.sum / vals.length)) series

/-- Recursive exponential smoothing y = a*x + (1-a)*y_prev. -/
def emaAux (a : ℚ) (acc : ℚ) : List ℚ → List ℚ
  | [] => []
  | x :: xs => (a * x + (1 - a) * acc) :: emaAux a (a * x + (1 - a) * acc) xs

/-- Exponential Moving Average: ewm(span=period, adjust=False,
min_periods=1).mean(), seeded with the first value.  All call sites in the
source pass NaN-free series. -/
def ema (series : List ℚ) (period : ℕ) : List ℚ :=
  match series with
  | [] => []
  | x :: xs => x :: emaAux (2 / ((period : ℚ) + 1)) x xs

/-- Adjusted exponentially weighted mean with a minimum observation count:
ewm(alpha=a, min_periods=mp).mean() (adjust defaults to True), running
numerator and denominator accumulators. -/
def ewmAdjAux (a : ℚ) (num den : ℚ) (k mp : ℕ) : List ℚ → List (Option ℚ)
  | [] => []
  | x :: xs =>
    (if k + 1 < mp then none
     else some (((1 - a) * num + x) / ((1 - a) * den + 1))) ::
      ewmAdjAux a ((1 - a) * num + x) ((1 - a) * den + 1) (k + 1) mp xs

/-- Model of Series.ewm(alpha=a, min_periods=mp).mean() on a NaN-free
series. -/
def ewmAdjMean (a : ℚ) (mp : ℕ) (s : List ℚ) : List (Option ℚ) :=
  ewmAdjAux a 0 0 0 mp s

/-- Relative Strength Index (feature_engineering.py rsi): Wilder-style
smoothing of gains and losses with alpha = 1/period and a warm-up of
period observations; the first delta is missing, and np.where maps it to
gain 0 and loss 0 (NaN > 0 and NaN < 0 are False). -/
def rsi (series : List ℚ) (period : ℕ) : List (Option ℚ) :=
  let delta := diff series
  let gain := delta.map (fun d => match d with
    | some v => if 0 < v then v else 0
    | none => 0)
  let loss := delta.map (fun d => match d with
    | some v => if v < 0 then -v else 0
    | none => 0)
  let avg_gain := ewmAdjMean (1 / (period : ℚ)) period gain
  let avg_loss := ewmAdjMean (1 / (period : ℚ)) period loss
  let rs := List.zipWith (o2 (fun g l => g / (l + eps))) avg_gain avg_loss
  rs.map (Option.map (fun r => 100 - 100 / (1 + r)))

/-- Model of np.sign. -/
def sgn (q : ℚ) : ℚ := if 0 < q then 1 else if q < 0 then -1 else 0

/-- Cumulative sum skipping missing values (pandas cumsum with the default
skipna=True: missing positions stay missing and do not contribute). -/
def cumsumSkip (acc : ℚ) : List (Option ℚ) → List (Option ℚ)
  | [] => []
  | none :: xs => none :: cumsumSkip acc xs
  | some v :: xs => some (acc + v) :: cumsumSkip (acc + v) xs

/-- On-Balance Volume (feature_engineering.py obv): cumulative sum of
volume * sign(close.diff()); np.sign of the missing first delta is
missing. -/
def obv (close volume : List ℚ) : List (Option ℚ) :=
  let direction := (diff close).map (Option.map sgn)
  cumsumSkip 0 (List.zipWith (fun v d => d.map (fun x => v * x)) volume direction)

/-- Spec-side rendering of the SMA contract: the arithmetic mean of the
trailing min(i+1, period) values. -/
def spec_sma_at (s : List ℚ) (p i : ℕ) : ℚ :=
  ((s.take (i + 1)).rtake p).sum / ((min (i + 1) p : ℕ) : ℚ)

/-- The sliding-window worker agrees with the index-wise trailing-window
description: with a reversed already-consumed prefix as its window state,
its entry i is the aggregation of the trailing window of pre ++ s at
index pre.length + i. -/
theorem rollingAux_get (w mp : ℕ) (hw : 1 ≤ w) (f : List ℚ → Option ℚ) :
    ∀ (s pre : List (Option ℚ)) (i : ℕ), i < s.length →
      (rollingAux w mp f (pre.reverse.take w) s)[i]? =
        some (if (rwindow w (pre ++ s) (pre.length + i)).length < mp then none
          else f (rwindow w (pre ++ s) (pre.length + i))) := by
  intro s
  induction s with
  | nil =>
    intro pre i hi
    simp at hi
  | cons x rest ih =>
    intro pre i hi
    obtain ⟨w', rfl⟩ : ∃ w', w = w' + 1 := ⟨w - 1, by omega⟩
    have hwr : (x :: pre.reverse.take (w' + 1)).take (w' + 1) =
        ((pre ++ [x]).reverse).take (w' + 1) := by
      rw [List.reverse_append, List.reverse_singleton, List.singleton_append,
        List.take_succ_cons, List.take_succ_cons, List.take_take]
      rw [Nat.min_eq_left (Nat.le_succ w')]
    cases i with
    | zero =>
      have hkey : (((x :: pre.reverse.take (w' + 1)).take (w' + 1)).reverse) =
          ((pre ++ x :: rest).take (pre.length + 0 + 1)).drop
            (pre.length + 0 + 1 - (w' + 1)) := by
        rw [List.take_succ_cons, List.take_take,
          Nat.min_eq_left (Nat.le_succ w'), List.reverse_cons,
          List.take_reverse, List.reverse_reverse]
        rw [List.take_append_eq_append_take,
          List.take_of_length_le (by omega : pre.length ≤ pre.length + 0 + 1),
          List.drop_append_eq_append_drop]
        have h1 : pre.length + 0 + 1 - pre.length = 1 := by omega
        have h2 : pre.length + 0 + 1 - (w' + 1) - pre.length = 0 := by omega
        have h3 : pre.length - w' = pre.length + 0 + 1 - (w' + 1) := by omega
        rw [h1, h2, h3, List.drop_zero]
        have h4 : (x :: rest).take 1 = [x] := rfl
        rw [h4]
      have hw0 : rwindow (w' + 1) (pre ++ x :: rest) (pre.length + 0) =
          (((x :: pre.reverse.take (w' + 1)).take (w' + 1)).reverse).filterMap
            id := by
        unfold rwindow
        rw [hkey]
      show ((if ((((x :: pre.reverse.take (w' + 1)).take
              (w' + 1)).reverse).filterMap id).length < mp then none
          else f ((((x :: pre.reverse.take (w' + 1)).take
            (w' + 1)).reverse).filterMap id)) ::
          rollingAux (w' + 1) mp f
            ((x :: pre.reverse.take (w' + 1)).take (w' + 1)) rest)[0]? = _
      rw [List.getElem?_cons_zero, hw0]
    | succ j =>
      have hj : j < rest.length := by simpa using Nat.lt_of_succ_lt_succ hi
      show ((if ((((x :: pre.reverse.take (w' + 1)).take
              (w' + 1)).reverse).filterMap id).length < mp then none
          else f ((((x :: pre.reverse.take (w' + 1)).take
            (w' + 1)).reverse).filterMap id)) ::
          rollingAux (w' + 1) mp f
            ((x :: pre.reverse.take (w' + 1)).take (w' + 1)) rest)[j + 1]? = _
      rw [List.getElem?_cons_succ, hwr]
      have h := ih (pre ++ [x]) j hj
      rw [List.append_assoc, List.singleton_append] at h
      have hl : (pre ++ [x]).length + j = pre.length + (j + 1) := by
        rw [List.length_append, List.length_singleton]
        omega
      rw [hl] at h
      exact h

/-- Entry i of a rolling aggregation is the aggregation of the trailing
window at index i. -/
theorem rollingApply_get (w mp : ℕ) (hw : 1 ≤ w) (f : List ℚ → Option ℚ)
    (s : List (Option ℚ)) (i : ℕ) (hi : i < s.length) :
    (rollingApply w mp f s)[i]? =
      some (if (rwindow w s i).length < mp then none
        else f (rwindow w s i)) := by
  have h := rollingAux_get w mp hw f s [] i hi
  simpa using h

/-- The rolling window of sma over a NaN-free series is the trailing
slice, and its value is that slice's mean. -/
theorem sma_pure_get (s : List ℚ) (p i : ℕ) (hp : 1 ≤ p) (hi : i < s.length) :
    (sma (pureS s) p)[i]? =
      some (some ((((s.take (i + 1)).drop (i + 1 - p)).sum) /
        ((((s.take (i + 1)).drop (i + 1 - p)).length : ℕ) : ℚ))) := by
  have hips : i < (pureS s).length := by simpa [pureS] using hi
  have hwin : rwindow p (pureS s) i = (s.take (i + 1)).drop (i + 1 - p) := by
    unfold rwindow pureS
    rw [← List.map_take, ← List.map_drop, List.filterMap_map]
    simp
  have hlw : ((s.take (i + 1)).drop (i + 1 - p)).length = min (i + 1) p := by
    rw [List.length_drop, List.length_take]
    omega
  unfold sma
  rw [rollingApply_get p 1 hp _ _ i hips, hwin]
  rw [if_neg (by rw [hlw]; omega)]

/-- C9: sma(series, period) at index i is the arithmetic mean of the
trailing min(i+1, period) values (set from index 0, minimum window 1);
for close prices [10,11,12,11,10,9,10,11,12,13] and period 3, the value
at index 2 is 11 and at index 9 is 12. -/
theorem c9_sma_trailing_mean :
    (∀ (s : List ℚ) (p i : ℕ), 1 ≤ p → i < s.length →
      (sma (pureS s) p)[i]? = some (some (spec_sma_at s p i))) ∧
    (sma (pureS [10, 11, 12, 11, 10, 9, 10, 11, 12, 13]) 3)[2]? =
      some (some 11) ∧
    (sma (pureS [10, 11, 12, 11, 10, 9, 10, 11, 12, 13]) 3)[9]? =
      some (some 12) := by
  refine ⟨?_, ?_, ?_⟩
  · intro s p i hp hi
    rw [sma_pure_get s p i hp hi]
    have hlw : ((s.take (i + 1)).drop (i + 1 - p)).length = min (i + 1) p := by
      rw [List.length_drop, List.length_take]
      omega
    unfold spec_sma_at List.rtake
    rw [hlw, List.length_take]
    have : min (i + 1) s.length - p = i + 1 - p := by omega
    rw [this]
  · with_unfolding_all decide
  · with_unfolding_all decide

/-- Witness for the universally quantified part of C9 at a concrete
series. -/
theorem c9_sma_trailing_mean_witness :
    (sma (pureS [5, 7]) 2)[1]? = some (some (spec_sma_at [5, 7] 2 1)) ∧
      spec_sma_at [5, 7] 2 1 = 6 := by
  refine ⟨c9_sma_trailing_mean.1 [5, 7] 2 1 (by norm_num) (by norm_num), ?_⟩
  with_unfolding_all decide

/-- Spec-side running sums: cumulative sum of a list of contributions. -/
def spec_running_sums (acc : ℚ) : List ℚ → List ℚ
  | [] => []
  | x :: xs => (acc + x) :: spec_running_sums (acc + x) xs

/-- C5 (counterexample): the first OBV entry is missing (NaN), not 0,
because np.sign of the undefined first delta is NaN and pandas cumsum
keeps NaN positions missing. -/
theorem c5_counterexample :
    (obv [10, 11] [5, 5])[0]? = some none ∧
      (obv [10, 11] [5, 5])[0]? ≠ some (some 0) := by
  constructor
  · with_unfolding_all decide
  · with_unfolding_all decide

/-- Helper for C5: after the missing head, pandas cumsum over the
volume-times-sign products produces exactly the running sums of
sign(delta) * volume. -/
theorem obv_tail_running_sums (cs : List ℚ) :
    ∀ (prev : ℚ) (vs : List ℚ) (acc : ℚ),
      cumsumSkip acc (List.zipWith (fun v d => d.map (fun x => v * x)) vs
        ((List.zipWith (fun b a => some (b - a)) cs (prev :: cs)).map
          (Option.map sgn))) =
      (spec_running_sums acc (List.zipWith (fun d v => sgn d * v)
        (List.zipWith (fun b a => b - a) cs (prev :: cs)) vs)).map some := by
  induction cs with
  | nil => intro prev vs acc; cases vs <;> rfl
  | cons c cs ih =>
    intro prev vs acc
    cases vs with
    | nil => rfl
    | cons v vs =>
      simp only [List.zipWith, List.map_cons, Option.map_some', cumsumSkip,
        spec_running_sums]
      rw [mul_comm v (sgn (c - prev))]
      exact congrArg _ (ih c vs (acc + sgn (c - prev) * v))

/-- C5 (amended): OBV's first entry is missing (NaN), and from index 1 on
OBV is the cumulative sum of sign(close[i] - close[i-1]) * volume[i], the
undefined first delta contributing nothing. -/
theorem c5_obv_amended (c0 v0 : ℚ) (cs vs : List ℚ) :
    obv (c0 :: cs) (v0 :: vs) =
      none :: (spec_running_sums 0
        (List.zipWith (fun d v => sgn d * v)
          (List.zipWith (fun b a => b - a) cs (c0 :: cs)) vs)).map some := by
  unfold obv diff
  simp only [List.map_cons, List.zipWith, cumsumSkip, Option.map_none']
  exact congrArg _ (obv_tail_running_sums cs c0 vs 0)

/-- Length is preserved by the adjusted exponentially weighted mean. -/
theorem ewmAdjAux_length (a : ℚ) (mp : ℕ) :
    ∀ (xs : List ℚ) (num den : ℚ) (k : ℕ),
      (ewmAdjAux a num den k mp xs).length = xs.length := by
  intro xs
  induction xs with
  | nil => intro num den k; rfl
  | cons x xs ih =>
    intro num den k
    simp only [ewmAdjAux, List.length_cons, ih]

/-- Entries of the adjusted exponentially weighted mean: missing exactly
before the minimum observation count is reached, and nonnegative on
nonnegative inputs (the weight 1 - a and both accumulators stay
nonnegative, the denominator at least 1). -/
theorem ewmAdjAux_get (a : ℚ) (_ha0 : 0 ≤ a) (ha1 : a ≤ 1) (mp : ℕ) :
    ∀ (xs : List ℚ) (num den : ℚ) (k i : ℕ), 0 ≤ num → 0 ≤ den →
      (∀ x ∈ xs, 0 ≤ x) → i < xs.length →
      (i + k + 1 < mp → (ewmAdjAux a num den k mp xs)[i]? = some none) ∧
      (mp ≤ i + k + 1 →
        ∃ v, (ewmAdjAux a num den k mp xs)[i]? = some (some v) ∧ 0 ≤ v) := by
  intro xs
  induction xs with
  | nil =>
    intro num den k i _ _ _ hi
    exact absurd hi (by simp)
  | cons x xs ih =>
    intro num den k i hnum hden hpos hi
    have hx : 0 ≤ x := hpos x (List.mem_cons_self x xs)
    have h1a : 0 ≤ 1 - a := by linarith
    have hn' : 0 ≤ (1 - a) * num + x := by positivity
    have hd' : (0 : ℚ) ≤ (1 - a) * den + 1 := by positivity
    cases i with
    | zero =>
      constructor
      · intro hlt
        simp only [ewmAdjAux, List.getElem?_cons_zero]
        rw [if_pos (by omega)]
      · intro hge
        simp only [ewmAdjAux, List.getElem?_cons_zero]
        rw [if_neg (by omega)]
        exact ⟨_, rfl, div_nonneg hn' hd'⟩
    | succ j =>
      have htail := ih ((1 - a) * num + x) ((1 - a) * den + 1) (k + 1) j hn'
        hd' (fun y hy => hpos y (List.mem_cons_of_mem x hy))
        (by simpa using Nat.lt_of_succ_lt_succ hi)
      constructor
      · intro hlt
        simp only [ewmAdjAux, List.getElem?_cons_succ]
        exact htail.1 (by omega)
      · intro hge
        simp only [ewmAdjAux, List.getElem?_cons_succ]
        exact htail.2 (by omega)

/-- The gain series of rsi has the same length as the input and is
nonnegative everywhere; likewise the loss series. -/
theorem diff_length (s : List ℚ) : (diff s).length = s.length := by
  cases s with
  | nil => rfl
  | cons x xs => simp [diff]

/-- C7: for any finite series and period at least 1, rsi is missing
before the period-observation warm-up is reached, and lies in [0, 100] at
every index from period - 1 on. -/
theorem c7_rsi_bounded (series : List ℚ) (period : ℕ) (hp : 1 ≤ period)
    (i : ℕ) (hi : i < series.length) :
    (i + 1 < period → (rsi series period)[i]? = some none) ∧
    (period ≤ i + 1 → ∃ v, (rsi series period)[i]? = some (some v) ∧
      0 ≤ v ∧ v ≤ 100) := by
  have ha0 : (0 : ℚ) ≤ 1 / (period : ℚ) := by positivity
  have ha1 : 1 / (period : ℚ) ≤ 1 := by
    rw [div_le_one (by exact_mod_cast hp)]
    exact_mod_cast hp
  unfold rsi
  set gain := (diff series).map (fun d => match d with
    | some v => if 0 < v then v else 0
    | none => 0) with hgain
  set loss := (diff series).map (fun d => match d with
    | some v => if v < 0 then -v else 0
    | none => 0) with hloss
  have hgl : gain.length = series.length := by
    rw [hgain, List.length_map, diff_length]
  have hll : loss.length = series.length := by
    rw [hloss, List.length_map, diff_length]
  have hgpos : ∀ x ∈ gain, 0 ≤ x := by
    intro x hx
    rw [hgain] at hx
    obtain ⟨d, _, rfl⟩ := List.mem_map.1 hx
    cases d with
    | none => exact le_refl 0
    | some v =>
      show (0 : ℚ) ≤ if 0 < v then v else 0
      by_cases h : 0 < v
      · rw [if_pos h]; exact le_of_lt h
      · rw [if_neg h]
  have hlpos : ∀ x ∈ loss, 0 ≤ x := by
    intro x hx
    rw [hloss] at hx
    obtain ⟨d, _, rfl⟩ := List.mem_map.1 hx
    cases d with
    | none => exact le_refl 0
    | some v =>
      show (0 : ℚ) ≤ if v < 0 then -v else 0
      by_cases h : v < 0
      · rw [if_pos h]; linarith
      · rw [if_neg h]
  have hg := ewmAdjAux_get (1 / (period : ℚ)) ha0 ha1 period gain 0 0 0 i
    (le_refl 0) (le_refl 0) hgpos (by omega)
  have hl := ewmAdjAux_get (1 / (period : ℚ)) ha0 ha1 period loss 0 0 0 i
    (le_refl 0) (le_refl 0) hlpos (by omega)
  constructor
  · intro hlt
    have hgn := hg.1 (by omega)
    have hln := hl.1 (by omega)
    rw [List.getElem?_map, List.getElem?_zipWith]
    unfold ewmAdjMean
    rw [hgn, hln]
    rfl
  · intro hge
    obtain ⟨g, hgs, hg0⟩ := hg.2 (by omega)
    obtain ⟨l, hls, hl0⟩ := hl.2 (by omega)
    rw [List.getElem?_map, List.getElem?_zipWith]
    unfold ewmAdjMean
    rw [hgs, hls]
    have hle : (0 : ℚ) < l + eps := by
      have : (0 : ℚ) < eps := by norm_num [eps]
      linarith
    set r := g / (l + eps) with hr
    have hr0 : 0 ≤ r := div_nonneg hg0 (le_of_lt hle)
    have h1r : (0 : ℚ) < 1 + r := by linarith
    refine ⟨100 - 100 / (1 + r), rfl, ?_, ?_⟩
    · have : 100 / (1 + r) ≤ 100 := by
        rw [div_le_iff₀ h1r]
        nlinarith
      linarith
    · have : 0 < 100 / (1 + r) := by positivity
      linarith

/-- Witness for C7 at a concrete series and period. -/
theorem c7_rsi_bounded_witness :
    (rsi [1, 2, 3] 2)[0]? = some none ∧
      ∃ v, (rsi [1, 2, 3] 2)[1]? = some (some v) ∧ 0 ≤ v ∧ v ≤ 100 := by
  have h0 := (c7_rsi_bounded [1, 2, 3] 2 (by norm_num) 0 (by norm_num)).1
    (by norm_num)
  have h1 := (c7_rsi_bounded [1, 2, 3] 2 (by norm_num) 1 (by norm_num)).2
    (by norm_num)
  exact ⟨h0, h1⟩

/-- Model of np.log on a series value: NaN stays NaN, a negative argument
gives NaN; rlog is a parameter standing for the real logarithm (rlog 0
stands for the -infinity value, which is not NaN; every call site in the
theorems below keeps the argument strictly positive). -/
def nplog (rlog : ℚ → ℚ) : Option ℚ → Option ℚ
  | none => none
  | some q => if q < 0 then none else some (rlog q)

/-- Rolling mean: rolling(window=w, min_periods=mp).mean(). -/
def rollingMeanO (w mp : ℕ) (s : List (Option ℚ)) : List (Option ℚ) :=
  rollingApply w mp (fun vals => some (vals.sum / (vals.length : ℚ))) s

/-- Sample variance (the square of pandas' rolling std, ddof = 1),
computed from the power sums x and xx as the pandas window kernel does. -/
def sampleVar (vals : List ℚ) : ℚ :=
  let n : ℚ := (vals.length : ℚ)
  ((vals.map (fun v => v ^ 2)).sum - vals.sum ^ 2 / n) /
    (((vals.length - 1 : ℕ)) : ℚ)

/-- Rolling standard deviation: rolling(window=w, min_periods=mp).std();
a single-observation window has zero degrees of freedom and is missing. -/
def rollingStd (rsqrt : ℚ → ℚ) (w mp : ℕ) (s : List (Option ℚ)) :
    List (Option ℚ) :=
  rollingApply w mp
    (fun vals => if vals.length ≤ 1 then none else some (rsqrt (sampleVar vals))) s

/-- MACD triple (macd_line, signal_line, histogram). -/
def macd (series : List ℚ) (fast slow signal : ℕ) :
    List ℚ × List ℚ × List ℚ :=
  let ema_fast := ema series fast
  let ema_slow := ema series slow
  let macd_line := List.zipWith (fun a b => a - b) ema_fast ema_slow
  let signal_line := ema macd_line signal
  let histogram := List.zipWith (fun a b => a - b) macd_line signal_line
  (macd_line, signal_line, histogram)

/-- Bollinger bands (upper, middle, lower). -/
def bollinger_bands (rsqrt : ℚ → ℚ) (series : List (Option ℚ)) (period : ℕ)
    (std_dev : ℚ) : List (Option ℚ) × List (Option ℚ) × List (Option ℚ) :=
  let middle := sma series period
  let std := rollingStd rsqrt period period series
  let upper := List.zipWith (o2 (fun m s => m + std_dev * s)) middle std
  let lower := List.zipWith (o2 (fun m s => m - std_dev * s)) middle std
  (upper, middle, lower)

/-- Row-wise maximum of the concatenated true-range candidates,
skipping missing values (pd.concat(axis=1).max(axis=1)). -/
def omax (t : ℚ) : Option ℚ → ℚ
  | none => t
  | some v => max t v

/-- True range series: max(high - low, abs(high - close.shift()),
abs(low - close.shift())); the first row has only the first candidate. -/
def true_range (high low close : List ℚ) : List ℚ :=
  let tr1 := List.zipWith (fun h l => h - l) high low
  let tr2 := List.zipWith (o2 (fun h c => |h - c|)) (pureS high)
    (shift 1 (pureS close))
  let tr3 := List.zipWith (o2 (fun l c => |l - c|)) (pureS low)
    (shift 1 (pureS close))
  List.zipWith omax (List.zipWith omax tr1 tr2) tr3

/-- Average True Range: true range followed by a strict rolling mean
(min_periods = period). -/
def atr (high low close : List ℚ) (period : ℕ) : List (Option ℚ) :=
  rollingMeanO period period (pureS (true_range high low close))

/-- ADX.  The second where-filter compares against the already-updated
plus_dm, exactly as the source does; atr(high, low, close, 1) is NaN-free
(window 1, min_periods 1 over the NaN-free true range), so the getD 0
extraction is unreachable. -/
def adx (high low close : List ℚ) (period : ℕ) : List ℚ :=
  let plus_dm_raw := diff high
  let minus_dm_raw := (diff low).map (Option.map (fun v => -v))
  let plus_dm := List.zipWith
    (fun p m => if gtB p m && gtB p (some 0) then p.getD 0 else 0)
    plus_dm_raw minus_dm_raw
  let minus_dm := List.zipWith
    (fun m p => if gtB m (some p) && gtB m (some 0) then m.getD 0 else 0)
    minus_dm_raw plus_dm
  let tr := (atr high low close 1).map (fun o => o.getD 0)
  let plus_di := List.zipWith (fun a b => 100 * a / (b + eps))
    (ema plus_dm period) (ema tr period)
  let minus_di := List.zipWith (fun a b => 100 * a / (b + eps))
    (ema minus_dm period) (ema tr period)
  let dx := List.zipWith (fun p m => 100 * |p - m| / (p + m + eps))
    plus_di minus_di
  ema dx period

/-- Pandas rolling skewness aggregation over a window's non-missing
values: missing below 3 observations or at (near-)zero variance (the
pandas kernel returns NaN when the variance term is at most 1e-14); the
value is the adjusted Fisher-Pearson estimate, whose square roots are
taken of nonnegative arguments only. -/
def skewFun (rsqrt : ℚ → ℚ) (vals : List ℚ) : Option ℚ :=
  let n : ℚ := (vals.length : ℚ)
  let x := vals.sum
  let xx := (vals.map (fun v => v ^ 2)).sum
  let xxx := (vals.map (fun v => v ^ 3)).sum
  let A := x / n
  let B := xx / n - A ^ 2
  let C := xxx / n - A ^ 3 - 3 * A * B
  if vals.length < 3 ∨ B ≤ 1 / 10 ^ 14 then none
  else some ((rsqrt (n * (n - 1)) * C) / ((n - 2) * (rsqrt B) ^ 3))

/-- Pandas rolling excess-kurtosis aggregation (unbiased): missing below
4 observations or at (near-)zero variance. -/
def kurtFun (vals : List ℚ) : Option ℚ :=
  let n : ℚ := (vals.length : ℚ)
  let x := vals.sum
  let xx := (vals.map (fun v => v ^ 2)).sum
  let xxx := (vals.map (fun v => v ^ 3)).sum
  let xxxx := (vals.map (fun v => v ^ 4)).sum
  let A := x / n
  let B := xx / n - A ^ 2
  let C := xxx / n - A ^ 3 - 3 * A * B
  let D := xxxx / n - A ^ 4 - 6 * A ^ 2 * B - 4 * A * C
  if vals.length < 4 ∨ B ≤ 1 / 10 ^ 14 then none
  else some (((n ^ 2 - 1) * D / B ^ 2 - 3 * (n - 1) ^ 2) /
    ((n - 2) * (n - 3)))

/- ===================================================================
   Feature assembly (engineer_features / process_all_symbols). -/

/-- The target label column: (close.shift(-1) > close).astype(int);
pandas comparisons with the missing last shifted value are False. -/
def target (close : List ℚ) : List ℚ :=
  List.zipWith (fun a b => if gtB a b then (1 : ℚ) else 0)
    (shiftNeg1 (pureS close)) (pureS close)

/-- The target_return column: close.pct_change(-1) * -1 (pct_change with
negative period is self / self.shift(-1) - 1 after the pad fill, which is
the identity on the NaN-free close). -/
def target_return (close : List ℚ) : List (Option ℚ) :=
  let f := ffill (pureS close)
  (List.zipWith odiv f (shiftNeg1 f)).map (Option.map (fun q => (q - 1) * (-1)))

/-- Spec-side next-bar simple return at a bar with close c followed by
close c1: (c1 - c) / c. -/
def spec_next_bar_return (c c1 : ℚ) : ℚ := (c1 - c) / c

/-- Forward fill is the identity on a NaN-free series. -/
theorem ffill_pure (close : List ℚ) : ffill (pureS close) = pureS close := by
  unfold ffill pureS
  generalize (none : Option ℚ) = acc
  induction close generalizing acc with
  | nil => rfl
  | cons c cs ih => simp only [List.map_cons, ffillAux, ih]

/-- Entry i of shift(-1) of a NaN-free series is entry i + 1 of the
series. -/
theorem shiftNeg1_pure_get (close : List ℚ) (i : ℕ) (h : i + 1 < close.length) :
    (shiftNeg1 (pureS close))[i]? = some (some (close.get ⟨i + 1, h⟩)) := by
  cases close with
  | nil => simp at h
  | cons c0 rest =>
    have hi : i < rest.length := by simpa using Nat.lt_of_succ_lt_succ h
    show ((rest.map some) ++ [none])[i]? = _
    rw [List.getElem?_append_left (by simpa using hi), List.getElem?_map,
      List.getElem?_eq_getElem hi]
    simp [List.get_eq_getElem]

/-- Entry i of a NaN-free series as an Option series. -/
theorem pureS_get (close : List ℚ) (i : ℕ) (h : i < close.length) :
    (pureS close)[i]? = some (some (close.get ⟨i, h⟩)) := by
  unfold pureS
  rw [List.getElem?_map, List.getElem?_eq_getElem h]
  simp [List.get_eq_getElem]

/-- C3 (counterexample): for closes [1, 2], the code's target_return at
index 0 is (2 - 1) / 2 = 1/2 (denominator the next close), while the
claimed realized next-bar simple return (2 - 1) / 1 is 1. -/
theorem c3_counterexample :
    (target_return [1, 2])[0]? = some (some (1 / 2)) ∧
      spec_next_bar_return 1 2 = 1 ∧ ((1 : ℚ) / 2) ≠ 1 := by
  refine ⟨by with_unfolding_all decide, ?_, by norm_num⟩
  unfold spec_next_bar_return
  norm_num

/-- C3 (amended): at every bar index with a successor and a nonzero next
close, target_return is (close[i+1] - close[i]) / close[i+1] (the next-bar
price change relative to the NEXT close, not the current one), and target
is 1 exactly when the next close strictly exceeds the current one. -/
theorem c3_target_amended (close : List ℚ) (i : ℕ)
    (hi : i + 1 < close.length) (hnz : close.get ⟨i + 1, hi⟩ ≠ 0) :
    (target_return close)[i]? =
      some (some ((close.get ⟨i + 1, hi⟩ - close.get ⟨i, Nat.lt_of_succ_lt hi⟩) /
        close.get ⟨i + 1, hi⟩)) ∧
    (target close)[i]? =
      some (if close.get ⟨i, Nat.lt_of_succ_lt hi⟩ < close.get ⟨i + 1, hi⟩
        then (1 : ℚ) else 0) := by
  set c := close.get ⟨i, Nat.lt_of_succ_lt hi⟩ with hc
  set c1 := close.get ⟨i + 1, hi⟩ with hc1
  constructor
  · unfold target_return
    rw [ffill_pure]
    rw [List.getElem?_map, List.getElem?_zipWith,
      pureS_get close i (Nat.lt_of_succ_lt hi), shiftNeg1_pure_get close i hi]
    have hodiv : odiv (some c) (some c1) = some (c / c1) := by
      show (if c1 = 0 then none else some (c / c1)) = some (c / c1)
      rw [if_neg hnz]
    show some (Option.map (fun q => (q - 1) * (-1)) (odiv (some c) (some c1))) =
      some (some ((c1 - c) / c1))
    rw [hodiv]
    have : (c / c1 - 1) * (-1) = (c1 - c) / c1 := by
      field_simp
    simp only [Option.map_some', this]
  · unfold target
    rw [List.getElem?_zipWith, shiftNeg1_pure_get close i hi,
      pureS_get close i (Nat.lt_of_succ_lt hi)]
    show some (if gtB (some c1) (some c) then (1 : ℚ) else 0) = _
    unfold gtB
    by_cases hlt : c < c1
    · rw [if_pos (by simpa using hlt), if_pos hlt]
    · rw [if_neg (by simpa using hlt), if_neg hlt]

/-- Witness for C3's amended statement at a concrete two-bar series. -/
theorem c3_target_amended_witness :
    (target_return [1, 2])[0]? = some (some (1 / 2)) ∧
      (target [1, 2])[0]? = some 1 := by
  have h := c3_target_amended [1, 2] 0 (by norm_num) (by norm_num)
  refine ⟨?_, ?_⟩
  · rw [h.1]
    norm_num
  · rw [h.2]
    norm_num

/-- The OHLCV input for one symbol, date-sorted (engineer_features sorts
by date first; the sort is the identity on date-sorted input, and the
carried non-numeric columns date/symbol/asset_class are never missing, so
they do not influence the drop-NaN step and are omitted). -/
structure Bars where
  open_price : List ℚ
  high : List ℚ
  low : List ℚ
  close : List ℚ
  volume : List ℚ

/-- All numeric columns of the engineered feature table of
engineer_features, in source order: carried close first, then the feature
columns, with target and target_return closing the list.  rsqrt and rlog
stand for np.sqrt and np.log. -/
def feature_front (rsqrt rlog : ℚ → ℚ) (b : Bars) : List (List (Option ℚ)) :=
  let close := b.close
  let high := b.high
  let low := b.low
  let volume := b.volume
  let open_price := b.open_price
  let closeO := pureS close
  let daily_returns := pct_change 1 closeO
  let ret := fun p => pct_change p closeO
  let logret := fun p =>
    (List.zipWith odiv closeO (shift p closeO)).map (nplog rlog)
  let sma_5 := sma closeO 5
  let sma_10 := sma closeO 10
  let sma_20 := sma closeO 20
  let sma_50 := sma closeO 50
  let price_to := fun m =>
    List.zipWith (o2 (fun c v => c / (v + eps))) closeO m
  let cross := fun a c => List.zipWith (o2 (fun x y => x / (y + eps))) a c
  let mom := fun p =>
    List.zipWith (o2 (fun c s => c - s)) closeO (shift p closeO)
  let roc := fun p =>
    List.zipWith (o2 (fun c s => (c - s) / (s + eps) * 100)) closeO
      (shift p closeO)
  let macd_t := macd close 12 26 9
  let macd_line := macd_t.1
  let signal_line := macd_t.2.1
  let histogram := macd_t.2.2
  let macd_cross := List.zipWith (fun a c => a - c) macd_line signal_line
  let vol := fun p =>
    (rollingStd rsqrt p p daily_returns).map
      (Option.map (fun s => s * rsqrt 252))
  let atr_5 := atr high low close 5
  let atr_10 := atr high low close 10
  let atr_14 := atr high low close 14
  let atr_pct := fun a =>
    List.zipWith (o2 (fun x c => x / (c + eps))) a closeO
  let bb := bollinger_bands rsqrt closeO 20 2
  let upper := bb.1
  let middle := bb.2.1
  let lower := bb.2.2
  let bb_pos := List.zipWith (o2 (fun a d => a / d))
    (List.zipWith (o2 (fun c l => c - l)) closeO lower)
    (List.zipWith (o2 (fun u l => u - l + eps)) upper lower)
  let bb_width := List.zipWith (o2 (fun d m => d / (m + eps)))
    (List.zipWith (o2 (fun u l => u - l)) upper lower) middle
  let above := fun m =>
    List.zipWith (fun c s => if gtB c s then (1 : ℚ) else 0) closeO m
  let trend := (List.zipWith (fun a c => a + c)
    (List.zipWith (fun a c => a + c) (above sma_5) (above sma_10))
    (List.zipWith (fun a c => a + c) (above sma_20) (above sma_50))).map
      (fun s => s / 4)
  let volume_sma_5 := sma (pureS volume) 5
  let volume_sma_10 := sma (pureS volume) 10
  let volume_ratio_c := List.zipWith (o2 (fun v m => v / (m + eps)))
    (pureS volume) volume_sma_10
  let obv_c := obv close volume
  let obv_change := pct_change 5 obv_c
  let range_hl := List.zipWith (fun h l => h - l + eps) high low
  let body_ratio_c := List.zipWith (fun x r => x / r)
    (List.zipWith (fun c o => c - o) close open_price) range_hl
  let upper_shadow := List.zipWith (fun x r => x / r)
    (List.zipWith (fun h m => h - m) high
      (List.zipWith (fun c o => max c o) close open_price)) range_hl
  let lower_shadow := List.zipWith (fun x r => x / r)
    (List.zipWith (fun m l => m - l)
      (List.zipWith (fun c o => min c o) close open_price) low) range_hl
  let higher_high := List.zipWith (fun a c => if gtB a c then (1 : ℚ) else 0)
    (pureS high) (shift 1 (pureS high))
  let lower_low := List.zipWith (fun a c => if gtB a c then (1 : ℚ) else 0)
    (shift 1 (pureS low)) (pureS low)
  let higher_close := List.zipWith (fun a c => if gtB a c then (1 : ℚ) else 0)
    closeO (shift 1 closeO)
  let skew_c := rollingApply 20 20 (skewFun rsqrt) daily_returns
  let kurt_c := rollingApply 20 20 kurtFun daily_returns
  let zscore := List.zipWith (o2 (fun d s => d / (s + eps)))
    (List.zipWith (o2 (fun x m => x - m)) daily_returns
      (rollingMeanO 20 20 daily_returns))
    (rollingStd rsqrt 20 20 daily_returns)
  [closeO,
   ret 1, logret 1, ret 2, logret 2, ret 3, logret 3,
   ret 5, logret 5, ret 10, logret 10, ret 20, logret 20,
   sma_5, pureS (ema close 5), sma_10, pureS (ema close 10),
   sma_20, pureS (ema close 20), sma_50, pureS (ema close 50),
   price_to sma_5, price_to sma_10, price_to sma_20, price_to sma_50,
   cross sma_5 sma_10, cross sma_10 sma_20, cross sma_20 sma_50,
   rsi close 7, rsi close 14, rsi close 21,
   mom 5, roc 5, mom 10, roc 10, mom 20, roc 20,
   pureS macd_line, pureS signal_line, pureS histogram, pureS macd_cross,
   vol 5, vol 10, vol 20,
   atr_5, atr_10, atr_14,
   atr_pct atr_5, atr_pct atr_14,
   bb_pos, bb_width,
   pureS (adx high low close 14),
   pureS trend,
   volume_sma_5, volume_sma_10, volume_ratio_c,
   obv_c, obv_change,
   pureS body_ratio_c, pureS upper_shadow, pureS lower_shadow,
   pureS higher_high, pureS lower_low, pureS higher_close,
   skew_c, kurt_c, zscore]

/-- The full column list: the engineered feature columns followed by the
target and target_return columns, which the source adds last. -/
def feature_cols (rsqrt rlog : ℚ → ℚ) (b : Bars) : List (List (Option ℚ)) :=
  feature_front rsqrt rlog b ++ [pureS (target b.close), target_return b.close]

/-- Number of rows of the feature frame (the length of its first column;
every pandas column shares the frame's index). -/
def num_rows (cols : List (List (Option ℚ))) : ℕ := (cols.headD []).length

/-- Presence mask of one column: true where the value is not missing. -/
def col_mask (col : List (Option ℚ)) : List Bool := col.map Option.isSome

/-- Pointwise conjunction of presence masks; a position beyond either
mask counts as missing (false).  On the equal-length pandas columns this
is the ordinary pointwise AND. -/
def and_masks : List Bool → List Bool → List Bool
  | [], acc => acc.map (fun _ => false)
  | a :: as, acc =>
    match acc with
    | [] => false :: and_masks as []
    | b :: bs => (a && b) :: and_masks as bs

/-- dropna keeps row i exactly when every column is non-missing there:
the conjunction of all column presence masks over the frame's rows. -/
def keep_mask (cols : List (List (Option ℚ))) : List Bool :=
  cols.foldr (fun col acc => and_masks (col_mask col) acc)
    (List.replicate (num_rows cols) true)

/-- The number of rows surviving the drop-NaN step. -/
def row_count (cols : List (List (Option ℚ))) : ℕ :=
  (keep_mask cols).count true

/-- Symbol-wise concatenation of per-symbol feature frames. -/
def concat_cols : List (List (List (Option ℚ))) → List (List (Option ℚ))
  | [] => []
  | [c] => c
  | c :: rest => List.zipWith (fun a d => a ++ d) c (concat_cols rest)

/-- Model of process_all_symbols: engineer each symbol, concatenate, and
hand the combined frame to the drop-NaN step (row_count /kept_rows). -/
def process_all_symbols (rsqrt rlog : ℚ → ℚ) (frames : List Bars) :
    List (List (Option ℚ)) :=
  concat_cols (frames.map (feature_cols rsqrt rlog))

/-- Entry length - 1 of shift(-1) of a nonempty NaN-free series is
missing. -/
theorem shiftNeg1_pure_last (close : List ℚ) (h : close ≠ []) :
    (shiftNeg1 (pureS close))[close.length - 1]? = some none := by
  cases close with
  | nil => exact absurd rfl h
  | cons c0 rest =>
    show ((rest.map some) ++ [none])[(c0 :: rest).length - 1]? = some none
    have hl : (c0 :: rest).length - 1 = rest.length := by simp
    rw [hl, List.getElem?_append_right (by simp)]
    simp

/-- The last target_return entry of a nonempty symbol is always missing:
the close has no successor there. -/
theorem target_return_last (close : List ℚ) (h : close ≠ []) :
    (target_return close)[close.length - 1]? = some none := by
  have hlt : close.length - 1 < close.length := by
    cases close with
    | nil => exact absurd rfl h
    | cons c0 rest => simp
  unfold target_return
  rw [ffill_pure, List.getElem?_map, List.getElem?_zipWith,
    pureS_get close _ hlt, shiftNeg1_pure_last close h]
  rfl

/-- target_return is one of the assembled feature columns. -/
theorem target_return_mem (rsqrt rlog : ℚ → ℚ) (b : Bars) :
    target_return b.close ∈ feature_cols rsqrt rlog b := by
  unfold feature_cols
  exact List.mem_append_right _ (by simp)

/-- The mask conjunction keeps a missing position of its left mask
missing. -/
theorem and_masks_get_false_left : ∀ (i : ℕ) (m acc : List Bool),
    m[i]? = some false → (and_masks m acc)[i]? = some false := by
  intro i
  induction i with
  | zero =>
    intro m acc hm
    cases m with
    | nil => simp at hm
    | cons a ms =>
      have ha : a = false := by simpa using hm
      subst ha
      cases acc with
      | nil =>
        rw [show and_masks (false :: ms) [] = false :: and_masks ms [] from rfl,
          List.getElem?_cons_zero]
      | cons y ys =>
        rw [show and_masks (false :: ms) (y :: ys) =
            (false && y) :: and_masks ms ys from rfl,
          List.getElem?_cons_zero, Bool.false_and]
  | succ j ihj =>
    intro m acc hm
    cases m with
    | nil => simp at hm
    | cons a ms =>
      have hm' : ms[j]? = some false := by simpa using hm
      cases acc with
      | nil =>
        show (false :: and_masks ms [])[j + 1]? = some false
        rw [List.getElem?_cons_succ]
        exact ihj ms [] hm'
      | cons y ys =>
        show ((a && y) :: and_masks ms ys)[j + 1]? = some false
        rw [List.getElem?_cons_succ]
        exact ihj ms ys hm'

/-- The mask conjunction keeps a missing position of its right mask
missing. -/
theorem and_masks_get_false_right : ∀ (i : ℕ) (m acc : List Bool),
    acc[i]? = some false → (and_masks m acc)[i]? = some false := by
  intro i
  induction i with
  | zero =>
    intro m acc hacc
    cases acc with
    | nil => simp at hacc
    | cons y ys =>
      have hy : y = false := by simpa using hacc
      subst hy
      cases m with
      | nil =>
        rw [show and_masks [] (false :: ys) =
            false :: ys.map (fun _ => false) from rfl,
          List.getElem?_cons_zero]
      | cons a ms =>
        rw [show and_masks (a :: ms) (false :: ys) =
            (a && false) :: and_masks ms ys from rfl,
          List.getElem?_cons_zero, Bool.and_false]
  | succ j ihj =>
    intro m acc hacc
    cases acc with
    | nil => simp at hacc
    | cons y ys =>
      have hacc' : ys[j]? = some false := by simpa using hacc
      cases m with
      | nil =>
        show ((y :: ys).map (fun _ => false))[j + 1]? = some false
        rw [List.getElem?_map, List.getElem?_cons_succ, hacc']
        rfl
      | cons a ms =>
        show ((a && y) :: and_masks ms ys)[j + 1]? = some false
        rw [List.getElem?_cons_succ]
        exact ihj ms ys hacc'

/-- Length of the mask conjunction. -/
theorem and_masks_length : ∀ (m acc : List Bool),
    (and_masks m acc).length = max m.length acc.length := by
  intro m
  induction m with
  | nil =>
    intro acc
    show (acc.map (fun _ => false)).length = _
    rw [List.length_map]
    simp
  | cons a ms ihm =>
    intro acc
    cases acc with
    | nil =>
      show (false :: and_masks ms []).length = _
      rw [List.length_cons, ihm []]
      simp
    | cons y ys =>
      show ((a && y) :: and_masks ms ys).length = _
      rw [List.length_cons, ihm ys, List.length_cons, List.length_cons]
      omega

/-- The mask conjunction never keeps more rows than its right operand. -/
theorem count_and_masks_le : ∀ (m acc : List Bool),
    (and_masks m acc).count true ≤ acc.count true := by
  intro m
  induction m with
  | nil =>
    intro acc
    have h0 : (acc.map (fun _ => false)).count true = 0 := by
      rw [List.count_eq_zero]
      intro hmem
      obtain ⟨x, _, hx⟩ := List.mem_map.1 hmem
      exact Bool.false_ne_true hx
    show (acc.map (fun _ => false)).count true ≤ acc.count true
    rw [h0]
    exact Nat.zero_le _
  | cons a ms ihm =>
    intro acc
    cases acc with
    | nil =>
      show (false :: and_masks ms []).count true ≤ (0 : ℕ)
      rw [List.count_cons]
      have h0 := ihm []
      simp only [List.count_nil, Nat.le_zero] at h0
      simp [h0]
    | cons y ys =>
      show ((a && y) :: and_masks ms ys).count true ≤ (y :: ys).count true
      rw [List.count_cons, List.count_cons]
      have h1 := ihm ys
      have h2 : (if ((a && y) == true) = true then 1 else 0) ≤
          (if (y == true) = true then 1 else 0) := by
        cases a <;> cases y <;> simp
      omega

/-- Folding further columns onto a mask never keeps more rows. -/
theorem count_keep_foldr_le (cols : List (List (Option ℚ))) (acc : List Bool) :
    (cols.foldr (fun col a => and_masks (col_mask col) a) acc).count true ≤
      acc.count true := by
  induction cols with
  | nil => exact le_refl _
  | cons col cs ih =>
    exact le_trans (count_and_masks_le (col_mask col) _) ih

/-- A mask with a false entry keeps strictly fewer rows than its
length. -/
theorem count_true_lt_of_false : ∀ (l : List Bool) (i : ℕ),
    l[i]? = some false → l.count true < l.length := by
  intro l
  induction l with
  | nil => intro i h; simp at h
  | cons y ys ih =>
    intro i
    cases i with
    | zero =>
      intro h
      have hy : y = false := by simpa using h
      subst hy
      rw [List.count_cons, List.length_cons]
      have : ((false : Bool) == true) = false := rfl
      rw [this]
      have := List.count_le_length (a := true) (l := ys)
      simp
      omega
    | succ j =>
      intro h
      have h' : ys[j]? = some false := by simpa using h
      rw [List.count_cons, List.length_cons]
      have h1 := ih j h'
      have h2 : (if (y == true) = true then 1 else 0) ≤ 1 := by
        by_cases hc : (y == true) = true <;> simp [hc]
      omega

/-- Length bookkeeping for the columns entering the C10 argument. -/
theorem ffillAux_length : ∀ (s : List (Option ℚ)) (acc : Option ℚ),
    (ffillAux acc s).length = s.length := by
  intro s
  induction s with
  | nil => intro acc; rfl
  | cons x xs ih =>
    intro acc
    cases x with
    | none => simp only [ffillAux, List.length_cons, ih]
    | some v => simp only [ffillAux, List.length_cons, ih]

/-- shift(-1) preserves length. -/
theorem shiftNeg1_length (s : List (Option ℚ)) :
    (shiftNeg1 s).length = s.length := by
  cases s with
  | nil => rfl
  | cons x xs => simp [shiftNeg1]

/-- target_return has one entry per bar. -/
theorem target_return_length (c : List ℚ) :
    (target_return c).length = c.length := by
  simp [target_return, ffill, List.length_zipWith, ffillAux_length,
    shiftNeg1_length, pureS]

/-- A missing position of the accumulator mask stays missing under any
further column folds. -/
theorem keep_foldr_false (cols : List (List (Option ℚ))) (acc : List Bool)
    (i : ℕ) (h : acc[i]? = some false) :
    (cols.foldr (fun col a => and_masks (col_mask col) a) acc)[i]? =
      some false := by
  induction cols with
  | nil => exact h
  | cons col cs ih => exact and_masks_get_false_right i _ _ ih

/-- C10: for every nonempty per-symbol bar sequence, the feature table
after the drop-NaN step never contains a row for the symbol's last bar:
target_return is missing there because no successor bar exists, so the
drop-NaN mask is false at the last index and an n-bar input yields at
most n - 1 rows. -/
theorem c10_last_row_dropped (rsqrt rlog : ℚ → ℚ) (b : Bars)
    (h : b.close ≠ []) :
    (keep_mask (process_all_symbols rsqrt rlog [b]))[b.close.length - 1]? =
        some false ∧
      row_count (process_all_symbols rsqrt rlog [b]) ≤ b.close.length - 1 := by
  have hproc : process_all_symbols rsqrt rlog [b] = feature_cols rsqrt rlog b :=
    rfl
  have htr : (col_mask (target_return b.close))[b.close.length - 1]? =
      some false := by
    unfold col_mask
    rw [List.getElem?_map, target_return_last b.close h]
    rfl
  have hnum : num_rows (feature_cols rsqrt rlog b) = b.close.length := by
    show (pureS b.close).length = b.close.length
    simp [pureS]
  have hml : (col_mask (target_return b.close)).length = b.close.length := by
    unfold col_mask
    rw [List.length_map, target_return_length]
  have hinner : (and_masks (col_mask (target_return b.close))
      (List.replicate b.close.length true)).count true ≤
      b.close.length - 1 := by
    have hfalse := and_masks_get_false_left (b.close.length - 1)
      (col_mask (target_return b.close))
      (List.replicate b.close.length true) htr
    have hlt := count_true_lt_of_false _ _ hfalse
    rw [and_masks_length, hml, List.length_replicate, Nat.max_self] at hlt
    omega
  constructor
  · rw [hproc]
    unfold keep_mask
    rw [hnum]
    unfold feature_cols
    rw [List.foldr_append]
    apply keep_foldr_false
    show (and_masks (col_mask (pureS (target b.close)))
      (and_masks (col_mask (target_return b.close))
        (List.replicate b.close.length true)))[b.close.length - 1]? =
          some false
    apply and_masks_get_false_right
    exact and_masks_get_false_left _ _ _ htr
  · rw [hproc]
    unfold row_count keep_mask
    rw [hnum]
    unfold feature_cols
    rw [List.foldr_append]
    refine le_trans (count_keep_foldr_le (feature_front rsqrt rlog b) _) ?_
    show (and_masks (col_mask (pureS (target b.close)))
      (and_masks (col_mask (target_return b.close))
        (List.replicate b.close.length true))).count true ≤ _
    exact le_trans (count_and_masks_le _ _) hinner

/-- Concrete stand-ins for np.sqrt and np.log, used to instantiate the
rsqrt / rlog parameters on concrete inputs.  No missing-value pattern
depends on their values: square roots and logarithms are only taken of
nonnegative arguments and only flow into terminal column values. -/
def rsqrt0 : ℚ → ℚ := fun _ => 0

/-- Concrete stand-in for np.log, see rsqrt0. -/
def rlog0 : ℚ → ℚ := fun _ => 0

/-- Witness for C10 at a concrete two-bar symbol. -/
theorem c10_last_row_dropped_witness :
    (keep_mask (process_all_symbols rsqrt0 rlog0
      [⟨[1, 2], [3, 4], [0, 1], [1, 2], [5, 6]⟩]))[1]? = some false ∧
    row_count (process_all_symbols rsqrt0 rlog0
      [⟨[1, 2], [3, 4], [0, 1], [1, 2], [5, 6]⟩]) ≤ 1 := by
  have h := c10_last_row_dropped rsqrt0 rlog0
    ⟨[1, 2], [3, 4], [0, 1], [1, 2], [5, 6]⟩ (List.cons_ne_nil 1 [2])
  exact ⟨h.1, h.2⟩

/-- A concrete 200-bar single-symbol input with finite, non-missing OHLCV
values: strictly increasing integer closes with non-constant increments
(so no rolling window is degenerate), constant high/low bands enclosing
the closes, and positive volumes. -/
def c2_close : List ℚ :=
  (List.range 200).map (fun i => ((1000 + 10 * i + i % 3 : ℕ) : ℚ))

/-- The 200-bar input frame built from c2_close. -/
def c2_bars : Bars :=
  { open_price := c2_close.map (fun x => x - 1)
    high := List.replicate 200 4000
    low := List.replicate 200 1
    close := c2_close
    volume := (List.range 200).map (fun i => ((10 + i % 5 : ℕ) : ℚ)) }

set_option maxRecDepth 1000000 in
set_option maxHeartbeats 4000000 in
/-- Row count of the engineered table for the 200-bar input after the
drop-NaN step: 20 warm-up rows (the 20-period returns, momentum,
volatility and statistics columns and the 21-period RSI are missing on
rows 0 to 19) plus the final row (missing target_return) are dropped,
leaving 179. -/
theorem c2_row_count_eval :
    row_count (process_all_symbols rsqrt0 rlog0 [c2_bars]) = 179 := by
  with_unfolding_all decide

/-- C2 (counterexample): the feature table for a 200-bar input does not
have 150 rows after the drop-NaN step. -/
theorem c2_counterexample :
    row_count (process_all_symbols rsqrt0 rlog0 [c2_bars]) ≠ 150 := by
  rw [c2_row_count_eval]
  norm_num

/-- C2 (amended): a 200-bar single-symbol input with finite, non-missing,
non-degenerate OHLCV values yields exactly 179 rows after the drop-NaN
step: the longest warm-up among the engineered columns is 20 rows (the
20-period rolling statistics and the 21-period RSI), not 50 — SMA-50 and
EMA-50 are set from index 0 because they use a minimum window of 1 — and
the last row is additionally dropped because target_return has no
successor bar there. -/
theorem c2_amended_row_count :
    row_count (process_all_symbols rsqrt0 rlog0 [c2_bars]) = 179 ∧
      179 = 200 - 20 - 1 := by
  exact ⟨c2_row_count_eval, by norm_num⟩

end AlphaMirage
